import Mathlib

/-!
Verification development for the batch encoding and staggered dispatch engine
(`executePayments.ts` and companions).

The TypeScript source is embedded shallowly:
* pure numeric/byte code becomes Lean functions on `Nat` / `Int` / `List Nat`;
* JavaScript 32-bit bitwise semantics (`&`, `>>`) is modelled explicitly via
  `toInt32`, `Int.fmod` and `Int.fdiv`;
* `Buffer` is a `List Nat`; plain indexed assignment (which silently ignores
  out-of-range writes on typed arrays) is `List.set`, while `Buffer.set`
  (which throws `RangeError` when the source does not fit) is `bufSet`;
* exceptions become `Except`; promise settlement becomes `Option`
  (`none` = the promise never settles).
-/

namespace LargeTx

/-! ## WireEncoder -/

/-- `getSignatureCountLength` from `executePayments.ts`:
length in bytes of the compact-u16 encoding of a signature count. -/
def getSignatureCountLength (count : Nat) : Nat :=
  if count < 0x80 then 1
  else if count < 0x4000 then 2
  else 3

/-- JavaScript `ToInt32`: bitwise operators coerce their operands to signed
32-bit integers. -/
def toInt32 (n : Int) : Int := (n + 2 ^ 31) % 2 ^ 32 - 2 ^ 31

/-- The body of the `for (;;)` loop of `encodeLength`, with explicit fuel.
State `r` is the current `rem_len` (already coerced to int32; both `& 0x7f`
and `>>= 7` re-coerce, and for an int32 value the coercion is the identity).
`rem_len & 0x7f` is `Int.fmod r 128` (the low 7 bits of the two's-complement
representation) and the arithmetic shift `rem_len >>= 7` is `Int.fdiv r 128`.
Returns the list of bytes written, or `none` if the loop does not terminate
within `fuel` iterations. -/
def encodeLengthLoop (fuel : Nat) (r : Int) : Option (List Nat) :=
  match fuel with
  | 0 => none
  | fuel + 1 =>
    let elem := (Int.fmod r 128).toNat
    let r2 := Int.fdiv r 128
    if r2 = 0 then
      some [elem]
    else
      (encodeLengthLoop fuel r2).map (fun rest => (elem + 128) :: rest)

/-- `encodeLength` from `executePayments.ts`, as the byte list it writes into
`array[offset ..]`.  32 iterations of fuel are more than enough for every
terminating run (an int32 has at most five base-128 digits). -/
def encodeLength (count : Nat) : Option (List Nat) :=
  encodeLengthLoop 32 (toInt32 count)

/-- `encodeLength` never terminates on `count`: every fuel bound is exhausted. -/
def encodeLengthDiverges (count : Nat) : Prop :=
  ∀ fuel : Nat, encodeLengthLoop fuel (toInt32 count) = none

/-- Structural helper for `encodePure`: the fuel strictly dominates the
value, so the recursion always bottoms out before the fuel does. -/
def encodePureGo : Nat → Nat → List Nat
  | 0, _ => []
  | fuel + 1, n =>
    if n / 128 = 0 then [n % 128]
    else (n % 128 + 128) :: encodePureGo fuel (n / 128)

/-- The mathematical base-128 little-endian varint (low 7 bits per byte,
continuation bit `0x80`).  For `0 ≤ count < 2^31` this is exactly what
`encodeLength` emits (proved below). -/
def encodePure (n : Nat) : List Nat :=
  encodePureGo (n + 1) n

theorem encodePureGo_congr :
    ∀ (f1 : Nat) (n f2 : Nat), n < f1 → n < f2 →
      encodePureGo f1 n = encodePureGo f2 n := by
  intro f1
  induction f1 with
  | zero => intro n f2 h1 _; omega
  | succ f1 ih =>
    intro n f2 h1 h2
    cases f2 with
    | zero => omega
    | succ f2 =>
      show (if n / 128 = 0 then [n % 128]
        else (n % 128 + 128) :: encodePureGo f1 (n / 128)) =
        (if n / 128 = 0 then [n % 128]
        else (n % 128 + 128) :: encodePureGo f2 (n / 128))
      by_cases h0 : n / 128 = 0
      · rw [if_pos h0, if_pos h0]
      · have hn : n / 128 < n := Nat.div_lt_self (by omega) (by omega)
        rw [if_neg h0, if_neg h0, ih (n / 128) f2 (by omega) (by omega)]

/-- Unfolding equation of `encodePure`, matching the loop of `encodeLength`
one iteration at a time. -/
theorem encodePure_unfold (n : Nat) :
    encodePure n =
      if n / 128 = 0 then [n % 128]
      else (n % 128 + 128) :: encodePure (n / 128) := by
  show (if n / 128 = 0 then [n % 128]
    else (n % 128 + 128) :: encodePureGo n (n / 128)) = _
  by_cases h0 : n / 128 = 0
  · rw [if_pos h0, if_pos h0]
  · have hn : n / 128 < n := Nat.div_lt_self (by omega) (by omega)
    rw [if_neg h0, if_neg h0,
      encodePureGo_congr n (n / 128) (n / 128 + 1) (by omega) (by omega)]
    rfl

/-- The matching base-128 little-endian varint decoder: low 7 bits of each
byte, less significant bytes first. -/
def decodeCompactLength : List Nat → Nat
  | [] => 0
  | b :: rest => b % 128 + 128 * decodeCompactLength rest

/-! ## Buffer model

A Node `Buffer` is a fixed-size byte array.  Plain indexed assignment
(`array[i] = v`, used by `encodeLength`) silently ignores an out-of-range
index on a typed array — exactly `List.set`, which is the identity when the
index is out of range.  `Buffer.prototype.set(src, offset)` (used for the
signatures and the message body) throws `RangeError` when
`offset + src.length` exceeds the buffer length. -/

/-- Write the bytes of `src` one at a time starting at `off`
(JS indexed assignment: out-of-range writes are dropped). -/
def bufWriteBytes (buf : List Nat) (off : Nat) : List Nat → List Nat
  | [] => buf
  | v :: rest => bufWriteBytes (buf.set off v) (off + 1) rest

/-- Errors thrown by `customSerializeTransaction`. -/
inductive SerError where
  /-- `new Error('Transaction must be fully signed before serialization')` —
  note the message is a constant: it carries no slot index. -/
  | missingSignature : SerError
  /-- `RangeError` thrown by `Buffer.set` when the source does not fit. -/
  | rangeError : SerError
  deriving DecidableEq, Repr

/-- `buf.set(src, off)` for a Node `Buffer`: bounds-checked block write. -/
def bufSet (buf : List Nat) (src : List Nat) (off : Nat) :
    Except SerError (List Nat) :=
  if off + src.length ≤ buf.length then .ok (bufWriteBytes buf off src)
  else .error .rangeError

/-! ## customSerializeTransaction -/

/-- The `for (const signature of tx.signatures)` loop of
`customSerializeTransaction`: check each slot is signed, copy the 64-byte
signature with `wireTransaction.set(signature.signature, offset)`, and
advance `offset += 64`.  Returns the updated buffer and offset. -/
def writeSignatures (buf : List Nat) (off : Nat) :
    List (Option (List Nat)) → Except SerError (List Nat × Nat)
  | [] => .ok (buf, off)
  | none :: _ => .error .missingSignature
  | some sig :: rest =>
    match bufSet buf sig off with
    | .error e => .error e
    | .ok buf2 => writeSignatures buf2 (off + 64) rest

/-- `customSerializeTransaction` from `executePayments.ts`.

`signatures` is `tx.signatures` (each entry `some bytes` or `none` for an
unsigned slot); `serializedMessage` is `tx.compileMessage().serialize()`
(external to this core, taken as input).  The (commented-out) 1232-byte size
check is absent, as in the source.  The length-prefix bytes written by
`encodeLength` are `encodePure signatures.length`, which agrees with the JS
loop for every count below `2^31` (`encodeLengthLoop_eq_encodePure` below);
beyond that bound the JS loop does not terminate at all. -/
def customSerializeTransaction (signatures : List (Option (List Nat)))
    (serializedMessage : List Nat) : Except SerError (List Nat) :=
  let signatureCount := signatures.length
  let signatureCountLength := getSignatureCountLength signatureCount
  let serializedSignaturesLength := signatureCountLength + signatureCount * 64
  let transactionSize := serializedSignaturesLength + serializedMessage.length
  let wireTransaction := List.replicate transactionSize 0
  let lenBytes := encodePure signatureCount
  let wireTransaction2 := bufWriteBytes wireTransaction 0 lenBytes
  let offset := lenBytes.length
  match writeSignatures wireTransaction2 offset signatures with
  | .error e => .error e
  | .ok (wireTransaction3, offset2) =>
    bufSet wireTransaction3 serializedMessage offset2

/-! ## BatchPartitioner / transaction generation -/

/-- One transfer instruction, as built by `SystemProgram.transfer`
(external constructor; only its three fields matter here). -/
structure TransferParams where
  fromPubkey : Nat
  toPubkey : Nat
  lamports : Nat
  deriving DecidableEq, Repr

/-- The instruction pushed `batchSize` times by `generateTransactions` /
`generateRawTransactions`: same funding source, same destination,
a fixed 10,000 lamports. -/
def transferInstr (fundingWallet destinationWallet : Nat) : TransferParams :=
  ⟨fundingWallet, destinationWallet, 10000⟩

/-- The inner slicing loop
`for (let j = lowerIndex; j < upperIndex; j++) if (allInstructions[j]) tx.add(...)`:
indices `i*batchSize ≤ j < (i+1)*batchSize`, keeping only entries that exist
(an out-of-range index reads `undefined`, which is falsy; the instructions
themselves are objects, hence truthy). -/
def batchSlice (l : List α) (batchSize i : Nat) : List α :=
  (List.range' (i * batchSize) batchSize).filterMap (fun j => l.get? j)

/-- `Math.ceil(L / batchSize)` as used for `numTransactions`.  For
`batchSize ≤ 0` the JS quotient is `NaN` (division by zero) or non-positive,
so the subsequent `for (let i = 0; i < numTransactions; i++)` loop runs zero
times; this is modelled as `0` batches. -/
def jsNumTransactions (L : Nat) (batchSize : Int) : Nat :=
  if batchSize ≤ 0 then 0
  else (L + batchSize.toNat - 1) / batchSize.toNat

/-- The partitioning step shared by `generateTransactions` (both copies) for
an arbitrary operation list and a positive batch size: `ceil(L/B)` slices of
`B` consecutive operations each, clipped at the end of the list. -/
def partitionStep (l : List α) (batchSize : Nat) : List (List α) :=
  (List.range ((l.length + batchSize - 1) / batchSize)).map
    (fun i => batchSlice l batchSize i)

/-- `generateTransactions` from `executePayments.ts`: build `batchSize`
transfer instructions, then slice them into transactions of `batchSize`
instructions each.  A transaction is represented by its instruction list
(blockhash and signing happen later, outside this function). -/
def generateTransactions (batchSize : Int)
    (fundingWallet destinationWallet : Nat) : List (List TransferParams) :=
  let allInstructions :=
    List.replicate batchSize.toNat (transferInstr fundingWallet destinationWallet)
  (List.range (jsNumTransactions allInstructions.length batchSize)).map
    (fun i => batchSlice allInstructions batchSize.toNat i)

/-- `generateRawTransactions` from `executePayments.ts`: same instruction
creation and slicing as `generateTransactions`, then each transaction gets
the fetched blockhash, is signed by the funding wallet, and is serialized by
`customSerializeTransaction`.  Blockhash fetching, message compilation and
ed25519 signing are external (`connection` / web3.js), so that pipeline is
abstracted as `signAndSerialize`. -/
def generateRawTransactions (batchSize : Int)
    (fundingWallet destinationWallet : Nat)
    (signAndSerialize : List TransferParams → List Nat) : List (List Nat) :=
  let allInstructions :=
    List.replicate batchSize.toNat (transferInstr fundingWallet destinationWallet)
  (List.range (jsNumTransactions allInstructions.length batchSize)).map
    (fun i => signAndSerialize (batchSlice allInstructions batchSize.toNat i))

/-! ## SendWithRetry -/

/-- Result of one call to `sendRawTransactionWithRetry`. -/
inductive SendOutcome where
  /-- `return signature` — the attempt's `sendRawTransaction` and
  `confirmTransaction` both succeeded. -/
  | success (signature : String) : SendOutcome
  /-- an exception propagated out of the loop body: the `catch` clause ends
  in `throw err` on both of its branches. -/
  | failure (err : String) : SendOutcome
  /-- ``new Error(`Failed to send transaction after N attempts`)`` after the
  `while` loop exits normally. -/
  | exhausted (retries : Nat) : SendOutcome
  deriving DecidableEq, Repr

/-- The `while (i < retries)` loop of `sendRawTransactionWithRetry` (and of
`sendTransactionWithRetry`, which has the identical control flow).
`attempt k` is the combined outcome of iteration `k`'s awaited network calls
(`sendRawTransaction` then `confirmTransaction`): `.ok signature` or
`.error err` for a thrown error.  `remaining` counts the loop iterations
still allowed (`retries - i`).  The second result component counts the
submission attempts actually performed (instrumentation, not a source
variable).

Note the `catch` clause rethrows on both branches, so the loop body never
reaches the `i++` statement: there is no recursive continuation, and the
loop body can run at most once. -/
def sendLoopGo (attempt : Nat → Except String String) (retries : Nat) :
    (remaining : Nat) → (i : Nat) → SendOutcome × Nat
  | 0, i => (.exhausted retries, i)
  | _ + 1, i =>
    match attempt i with
    | .ok signature => (.success signature, i + 1)
    | .error err => (.failure err, i + 1)

/-- `sendRawTransactionWithRetry` from `executePayments.ts`, starting the
loop at `i = 0` with default `retries = 5`. -/
def sendRawTransactionWithRetry (attempt : Nat → Except String String)
    (retries : Nat := 5) : SendOutcome × Nat :=
  sendLoopGo attempt retries retries 0

/-! ## StaggeredDispatcher -/

/-- One entry of a `Promise.allSettled` result. -/
inductive SettledResult (α : Type) where
  | fulfilled (value : α) : SettledResult α
  | rejected (reason : String) : SettledResult α
  deriving DecidableEq, Repr

/-- Eventual settlement of one wrapper promise built by
`executeRawTransactions`:
`new Promise((resolve) => setTimeout(() => sendRawTransactionWithRetry(...).then(resolve), i * TX_INTERVAL))`.
Only `resolve` is wired to the inner promise's fulfillment; the executor's
`reject` is never called and the inner promise's rejection is not handled,
so on any non-success the wrapper stays pending forever (`none`). -/
def settleWrapper : SendOutcome → Option (SettledResult String)
  | .success sig => some (.fulfilled sig)
  | .failure _ => none
  | .exhausted _ => none

/-- `Promise.allSettled`: resolves (with one entry per input, in order) once
every input promise has settled; if some input never settles, it never
resolves (`none`). -/
def promiseAllSettled : List (Option (SettledResult α)) →
    Option (List (SettledResult α))
  | [] => some []
  | none :: _ => none
  | some r :: rest => (promiseAllSettled rest).map (fun l => r :: l)

/-- `TX_INTERVAL` from `executeRawTransactions`. -/
def TX_INTERVAL : Nat := 3500

/-- The `setTimeout` delay used for the message at index `i` in
`executeRawTransactions`: `i * TX_INTERVAL`. -/
def dispatchDelays (n : Nat) : List Nat :=
  (List.range n).map (fun i => i * TX_INTERVAL)

/-- `executeRawTransactions` from `executePayments.ts`, as the eventual value
of the promise it returns.  `send m` is the settlement of
`sendRawTransactionWithRetry(connection, m)` (network behavior is external);
each message is wrapped by `settleWrapper` and the wrappers are joined with
`Promise.allSettled`.  `none` means the returned promise never resolves. -/
def executeRawTransactions (send : β → SendOutcome)
    (rawTransactionList : List β) : Option (List (SettledResult String)) :=
  let staggeredTransactions :=
    rawTransactionList.map (fun m => settleWrapper (send m))
  promiseAllSettled staggeredTransactions

/-! ## Lemmas about the compact-length encoder -/

theorem decode_encodePure (n : Nat) : decodeCompactLength (encodePure n) = n := by
  induction n using Nat.strong_induction_on with
  | _ n ih =>
    rw [encodePure_unfold]
    by_cases h : n / 128 = 0
    · simp only [h, if_pos, decodeCompactLength]
      omega
    · simp only [h, if_neg, decodeCompactLength,
        ih (n / 128) (Nat.div_lt_self (by omega) (by omega))]
      omega

theorem encodePure_zero : encodePure 0 = [0] := by
  rw [encodePure_unfold]; simp

theorem encodePure_length_one (n : Nat) (h : n < 128) :
    (encodePure n).length = 1 := by
  rw [encodePure_unfold]
  have h0 : n / 128 = 0 := by omega
  simp [h0]

theorem encodePure_length_two (n : Nat) (h1 : 128 ≤ n) (h2 : n < 16384) :
    (encodePure n).length = 2 := by
  rw [encodePure_unfold]
  have h0 : n / 128 ≠ 0 := by omega
  simp [h0, encodePure_length_one (n / 128) (by omega)]

theorem encodePure_length_three (n : Nat) (h1 : 16384 ≤ n) (h2 : n < 2097152) :
    (encodePure n).length = 3 := by
  rw [encodePure_unfold]
  have h0 : n / 128 ≠ 0 := by omega
  simp [h0, encodePure_length_two (n / 128) (by omega) (by omega)]

theorem encodePure_length_four (n : Nat) (h1 : 2097152 ≤ n)
    (h2 : n < 268435456) : (encodePure n).length = 4 := by
  rw [encodePure_unfold]
  have h0 : n / 128 ≠ 0 := by omega
  simp [h0, encodePure_length_three (n / 128) (by omega) (by omega)]

theorem encodePure_length_le (n : Nat) (h : n < 2 ^ 31) :
    (encodePure n).length ≤ 5 := by
  rw [encodePure_unfold]
  by_cases h0 : n / 128 = 0
  · simp [h0]
  · rw [encodePure_unfold]
    by_cases h1 : n / 128 / 128 = 0
    · simp [h0, h1]
    · rw [encodePure_unfold]
      by_cases h2 : n / 128 / 128 / 128 = 0
      · simp [h0, h1, h2]
      · rw [encodePure_unfold]
        by_cases h3 : n / 128 / 128 / 128 / 128 = 0
        · simp [h0, h1, h2, h3]
        · rw [encodePure_unfold]
          have h4 : n / 128 / 128 / 128 / 128 / 128 = 0 := by omega
          simp [h0, h1, h2, h3, h4]

theorem fdiv_natCast_128 (n : Nat) :
    Int.fdiv (n : Int) 128 = ((n / 128 : Nat) : Int) :=
  (Int.ofNat_fdiv n 128).symm

theorem fmod_natCast_128 (n : Nat) :
    Int.fmod (n : Int) 128 = ((n % 128 : Nat) : Int) :=
  (Int.ofNat_fmod n 128).symm

/-- On a non-negative state the loop body agrees with plain `Nat` division:
`& 0x7f` is `% 128` and the arithmetic shift is `/ 128`. -/
theorem encodeLengthLoop_natCast (fuel n : Nat) :
    encodeLengthLoop (fuel + 1) (n : Int) =
      if n / 128 = 0 then some [n % 128]
      else (encodeLengthLoop fuel ((n / 128 : Nat) : Int)).map
        (fun rest => (n % 128 + 128) :: rest) := by
  simp only [encodeLengthLoop, fdiv_natCast_128, fmod_natCast_128,
    Int.toNat_ofNat, Nat.cast_eq_zero]

/-- For a natural number below `128 ^ (fuel + 1)`, the JS loop terminates
within `fuel + 1` iterations and emits exactly the mathematical varint. -/
theorem encodeLengthLoop_eq_encodePure :
    ∀ (fuel n : Nat), n < 128 ^ (fuel + 1) →
      encodeLengthLoop (fuel + 1) (n : Int) = some (encodePure n) := by
  intro fuel
  induction fuel with
  | zero =>
    intro n h
    have h0 : n / 128 = 0 := by
      have h128 : (128 : Nat) ^ (0 + 1) = 128 := by norm_num
      omega
    rw [encodeLengthLoop_natCast, if_pos h0, encodePure_unfold]
    simp [h0]
  | succ fuel ih =>
    intro n h
    rw [encodeLengthLoop_natCast]
    by_cases h0 : n / 128 = 0
    · rw [if_pos h0, encodePure_unfold]
      simp [h0]
    · have hlt : n / 128 < 128 ^ (fuel + 1) := by
        rw [Nat.div_lt_iff_lt_mul (by omega)]
        calc n < 128 ^ (fuel + 1 + 1) := h
        _ = 128 ^ (fuel + 1) * 128 := by ring
      rw [if_neg h0, ih (n / 128) hlt]
      conv_rhs => rw [encodePure_unfold]
      simp [h0]

/-- A negative loop state never reaches zero: `rem_len >> 7` (floor division
by 128) keeps a negative value negative, so the loop never exits. -/
theorem encodeLengthLoop_neg :
    ∀ (fuel : Nat) (r : Int), r < 0 → encodeLengthLoop fuel r = none := by
  intro fuel
  induction fuel with
  | zero => intro r _; rfl
  | succ fuel ih =>
    intro r hr
    have hneg : Int.fdiv r 128 < 0 := Int.fdiv_neg' hr (by omega)
    rw [show encodeLengthLoop (fuel + 1) r =
      (if Int.fdiv r 128 = 0 then some [(Int.fmod r 128).toNat]
       else (encodeLengthLoop fuel (Int.fdiv r 128)).map
         (fun rest => ((Int.fmod r 128).toNat + 128) :: rest)) from rfl]
    rw [if_neg (by omega), ih (Int.fdiv r 128) hneg]
    rfl

theorem toInt32_of_lt (n : Nat) (h : n < 2 ^ 31) : toInt32 n = n := by
  unfold toInt32
  omega

theorem toInt32_two_pow_31 : toInt32 (2 ^ 31) = -(2 ^ 31) := by
  unfold toInt32
  decide

/-! ## Lemmas about the buffer model and the serializer -/

theorem length_bufWriteBytes :
    ∀ (src buf : List Nat) (off : Nat),
      (bufWriteBytes buf off src).length = buf.length := by
  intro src
  induction src with
  | nil => intro buf off; rfl
  | cons v rest ih =>
    intro buf off
    show (bufWriteBytes (buf.set off v) (off + 1) rest).length = buf.length
    rw [ih, List.length_set]

theorem bufWriteBytes_cons (b : Nat) :
    ∀ (src bs : List Nat) (off : Nat),
      bufWriteBytes (b :: bs) (off + 1) src = b :: bufWriteBytes bs off src := by
  intro src
  induction src with
  | nil => intro bs off; rfl
  | cons v rest ih =>
    intro bs off
    show bufWriteBytes ((b :: bs).set (off + 1) v) (off + 1 + 1) rest = _
    rw [List.set_cons_succ]
    exact ih (bs.set off v) (off + 1)

theorem bufWriteBytes_zero :
    ∀ (src buf : List Nat), src.length ≤ buf.length →
      bufWriteBytes buf 0 src = src ++ buf.drop src.length := by
  intro src
  induction src with
  | nil => intro buf _; simp [bufWriteBytes]
  | cons v rest ih =>
    intro buf h
    cases buf with
    | nil => simp at h
    | cons c bs =>
      show bufWriteBytes ((c :: bs).set 0 v) (0 + 1) rest = _
      rw [List.set_cons_zero, bufWriteBytes_cons v rest bs 0,
        ih bs (by simpa using h)]
      simp

/-- A bounds-respecting block write replaces exactly the window
`[off, off + src.length)` of the buffer. -/
theorem bufWriteBytes_eq :
    ∀ (off : Nat) (buf src : List Nat), off + src.length ≤ buf.length →
      bufWriteBytes buf off src =
        buf.take off ++ src ++ buf.drop (off + src.length) := by
  intro off
  induction off with
  | zero =>
    intro buf src h
    rw [bufWriteBytes_zero src buf (by omega)]
    simp
  | succ off ih =>
    intro buf src h
    cases buf with
    | nil => simp at h
    | cons c bs =>
      have hbs : off + src.length ≤ bs.length := by
        simp at h; omega
      rw [bufWriteBytes_cons c src bs off, ih bs src hbs, List.take_succ_cons,
        show off + 1 + src.length = off + src.length + 1 by omega,
        List.drop_succ_cons]
      simp

theorem flatten_filterMap_length :
    ∀ (sigs : List (Option (List Nat))),
      (∀ s ∈ sigs, s.map List.length = some 64) →
      ((sigs.filterMap id).flatten).length = 64 * sigs.length := by
  intro sigs
  induction sigs with
  | nil => intro _; rfl
  | cons s rest ih =>
    intro h
    have hs := h s (List.mem_cons_self s rest)
    cases s with
    | none => simp at hs
    | some b =>
      have hb : b.length = 64 := by simpa using hs
      have hrest := ih (fun x hx => h x (List.mem_cons_of_mem _ hx))
      show (b ++ (rest.filterMap id).flatten).length = 64 * (rest.length + 1)
      rw [List.length_append, hb, hrest]
      omega

/-- Running the signature loop on all-present 64-byte signatures with enough
room writes the concatenated signatures at `[off, off + 64·count)` and
returns the advanced offset. -/
theorem writeSignatures_ok :
    ∀ (sigs : List (Option (List Nat))) (buf : List Nat) (off : Nat),
      (∀ s ∈ sigs, s.map List.length = some 64) →
      off + 64 * sigs.length ≤ buf.length →
      writeSignatures buf off sigs =
        .ok (buf.take off ++ (sigs.filterMap id).flatten ++
              buf.drop (off + 64 * sigs.length),
            off + 64 * sigs.length) := by
  intro sigs
  induction sigs with
  | nil =>
    intro buf off _ _
    simp [writeSignatures, List.take_append_drop]
  | cons s rest ih =>
    intro buf off hall hbound
    have hs := hall s (List.mem_cons_self s rest)
    cases s with
    | none => simp at hs
    | some b =>
      have hb : b.length = 64 := by simpa using hs
      have hrest : ∀ x ∈ rest, x.map List.length = some 64 :=
        fun x hx => hall x (List.mem_cons_of_mem _ hx)
      have hlen : (some b :: rest).length = rest.length + 1 := by simp
      rw [hlen] at hbound
      have hfit : off + b.length ≤ buf.length := by rw [hb]; omega
      have hset : bufSet buf b off = .ok (bufWriteBytes buf off b) := by
        rw [bufSet, if_pos hfit]
      have hW : bufWriteBytes buf off b =
          buf.take off ++ b ++ buf.drop (off + 64) := by
        rw [bufWriteBytes_eq off buf b hfit, hb]
      rw [writeSignatures, hset]
      show writeSignatures (bufWriteBytes buf off b) (off + 64) rest = _
      rw [hW]
      have hWlen :
          (buf.take off ++ b ++ buf.drop (off + 64)).length = buf.length := by
        simp [hb]
        omega
      rw [ih (buf.take off ++ b ++ buf.drop (off + 64)) (off + 64) hrest
        (by rw [hWlen]; omega)]
      have htk : (buf.take off ++ b ++ buf.drop (off + 64)).take (off + 64) =
          buf.take off ++ b := by
        refine List.take_left' ?_
        rw [List.length_append, List.length_take, hb]
        omega
      have hdr : (buf.take off ++ b ++ buf.drop (off + 64)).drop
            (off + 64 + 64 * rest.length) =
          buf.drop (off + 64 + 64 * rest.length) := by
        rw [← List.drop_drop]
        rw [List.drop_left' (by rw [List.length_append, List.length_take, hb]; omega)]
        rw [List.drop_drop]
      rw [htk, hdr]
      have harith : off + 64 * (some b :: rest).length =
          off + 64 + 64 * rest.length := by
        rw [hlen]
        omega
      rw [harith,
        show ((some b :: rest).filterMap id).flatten =
          b ++ (rest.filterMap id).flatten from rfl,
        ← List.append_assoc (buf.take off) b ((rest.filterMap id).flatten)]

/-- If some slot is unsigned (and every present signature is 64 bytes wide
with room for the writes that precede the unsigned slot), the loop throws the
missing-signature error. -/
theorem writeSignatures_missing :
    ∀ (sigs : List (Option (List Nat))) (buf : List Nat) (off : Nat),
      (∀ s ∈ sigs, s = none ∨ s.map List.length = some 64) →
      none ∈ sigs →
      off + 64 * sigs.length ≤ buf.length + 64 →
      writeSignatures buf off sigs = .error .missingSignature := by
  intro sigs
  induction sigs with
  | nil => intro buf off _ hmem _; simp at hmem
  | cons s rest ih =>
    intro buf off hall hmem hbound
    cases s with
    | none => rfl
    | some b =>
      have hs := hall (some b) (List.mem_cons_self _ rest)
      have hb : b.length = 64 := by
        rcases hs with h | h
        · simp at h
        · simpa using h
      have hmem2 : none ∈ rest := by
        rcases List.mem_cons.1 hmem with h | h
        · simp at h
        · exact h
      have hrlen : 1 ≤ rest.length :=
        List.length_pos.2 (List.ne_nil_of_mem hmem2)
      have hlen : (some b :: rest).length = rest.length + 1 := by simp
      rw [hlen] at hbound
      have hfit : off + b.length ≤ buf.length := by rw [hb]; omega
      have hset : bufSet buf b off = .ok (bufWriteBytes buf off b) := by
        rw [bufSet, if_pos hfit]
      rw [writeSignatures, hset]
      show writeSignatures (bufWriteBytes buf off b) (off + 64) rest = _
      exact ih (bufWriteBytes buf off b) (off + 64)
        (fun x hx => hall x (List.mem_cons_of_mem _ hx)) hmem2
        (by rw [length_bufWriteBytes]; omega)

/-- With all-present 64-byte signatures but not enough room for all of them,
some write must overrun the buffer, so the loop throws `RangeError`. -/
theorem writeSignatures_overflow :
    ∀ (sigs : List (Option (List Nat))) (buf : List Nat) (off : Nat),
      (∀ s ∈ sigs, s.map List.length = some 64) →
      1 ≤ sigs.length →
      buf.length < off + 64 * sigs.length →
      writeSignatures buf off sigs = .error .rangeError := by
  intro sigs
  induction sigs with
  | nil => intro buf off _ h1 _; simp at h1
  | cons s rest ih =>
    intro buf off hall _ hbound
    have hs := hall s (List.mem_cons_self s rest)
    cases s with
    | none => simp at hs
    | some b =>
      have hb : b.length = 64 := by simpa using hs
      have hlen : (some b :: rest).length = rest.length + 1 := by simp
      rw [hlen] at hbound
      by_cases hfit : off + b.length ≤ buf.length
      · have hset : bufSet buf b off = .ok (bufWriteBytes buf off b) := by
          rw [bufSet, if_pos hfit]
        rw [writeSignatures, hset]
        show writeSignatures (bufWriteBytes buf off b) (off + 64) rest = _
        have hrlen : 1 ≤ rest.length := by
          rw [hb] at hfit; omega
        exact ih (bufWriteBytes buf off b) (off + 64)
          (fun x hx => hall x (List.mem_cons_of_mem _ hx)) hrlen
          (by rw [length_bufWriteBytes]; omega)
      · have hset : bufSet buf b off = .error .rangeError := by
          rw [bufSet, if_neg hfit]
        rw [writeSignatures, hset]

theorem encodePure_length_eq (c : Nat) (h : c < 2097152) :
    (encodePure c).length = getSignatureCountLength c := by
  unfold getSignatureCountLength
  by_cases h1 : c < 0x80
  · rw [if_pos h1, encodePure_length_one c h1]
  · by_cases h2 : c < 0x4000
    · rw [if_neg h1, if_pos h2, encodePure_length_two c (by omega) h2]
    · rw [if_neg h1, if_neg h2, encodePure_length_three c (by omega) h]

/-- Full success run of the serializer: for fewer than `2^21` all-present
64-byte signatures, the output buffer is exactly
`[length-prefix bytes] ++ [signatures in order] ++ [message body]`. -/
theorem customSerializeTransaction_ok (sigs : List (Option (List Nat)))
    (body : List Nat) (hc : sigs.length < 2097152)
    (hall : ∀ s ∈ sigs, s.map List.length = some 64) :
    customSerializeTransaction sigs body =
      .ok (encodePure sigs.length ++ (sigs.filterMap id).flatten ++ body) := by
  have hlenb : (encodePure sigs.length).length = getSignatureCountLength sigs.length :=
    encodePure_length_eq sigs.length hc
  have hJ : ((sigs.filterMap id).flatten).length = 64 * sigs.length :=
    flatten_filterMap_length sigs hall
  simp only [customSerializeTransaction]
  set c := sigs.length with hc_def
  set scl := getSignatureCountLength c with hscl_def
  set size := scl + c * 64 + body.length with hsize_def
  set R : List Nat := List.replicate size 0 with hR_def
  have hRlen : R.length = size := by simp [hR_def]
  have hsclsize : scl + 0 ≤ size := by omega
  have hW1 : bufWriteBytes R 0 (encodePure c) = encodePure c ++ R.drop scl := by
    rw [bufWriteBytes_eq 0 R (encodePure c) (by rw [hRlen]; omega)]
    simp [hlenb]
  rw [hW1]
  have hW1len : (encodePure c ++ R.drop scl).length = size := by
    simp [hlenb, hRlen]
    omega
  have h2 : writeSignatures (encodePure c ++ R.drop scl) (encodePure c).length sigs =
      .ok ((encodePure c ++ R.drop scl).take (encodePure c).length ++
            (sigs.filterMap id).flatten ++
            (encodePure c ++ R.drop scl).drop ((encodePure c).length + 64 * c),
        (encodePure c).length + 64 * c) := by
    exact writeSignatures_ok sigs _ _ hall (by rw [hW1len, hlenb]; omega)
  rw [h2]
  have htk : (encodePure c ++ R.drop scl).take (encodePure c).length =
      encodePure c := List.take_left' rfl
  have hdr : (encodePure c ++ R.drop scl).drop ((encodePure c).length + 64 * c) =
      List.replicate body.length 0 := by
    rw [← List.drop_drop, List.drop_left' rfl, List.drop_drop, hR_def,
      List.drop_replicate]
    congr 1
    omega
  rw [htk, hdr]
  show bufSet (encodePure c ++ (sigs.filterMap id).flatten ++
      List.replicate body.length 0) body ((encodePure c).length + 64 * c) = _
  have hfinlen : (encodePure c ++ (sigs.filterMap id).flatten ++
      List.replicate body.length 0).length = size := by
    simp [hlenb, hJ]
    omega
  rw [bufSet, if_pos (by rw [hfinlen, hlenb]; omega)]
  rw [bufWriteBytes_eq _ _ _ (by rw [hfinlen, hlenb]; omega)]
  have htk2 : (encodePure c ++ (sigs.filterMap id).flatten ++
        List.replicate body.length 0).take ((encodePure c).length + 64 * c) =
      encodePure c ++ (sigs.filterMap id).flatten := by
    refine List.take_left' ?_
    rw [List.length_append, hJ]
  have hdr2 : (encodePure c ++ (sigs.filterMap id).flatten ++
        List.replicate body.length 0).drop
        ((encodePure c).length + 64 * c + body.length) = [] := by
    apply List.drop_eq_nil_of_le
    rw [hfinlen, hlenb]
    omega
  rw [htk2, hdr2]
  simp

/-! ## Claim theorems -/

/-- **C1.** The claimed retry contract fails on the code: the `catch` clause
of `sendRawTransactionWithRetry` rethrows on both of its branches, so the
`i++` statement is unreachable and the loop body runs at most once.  With
`maxAttempts = 5` and every attempt failing, exactly one submission attempt
occurs and the underlying error is rethrown directly (never the
`Failed to send transaction after 5 attempts` exhaustion error); with an
oracle that would succeed on the 3rd attempt, the call still performs only
the 1st attempt and fails with that attempt's error. -/
theorem c1_sendRawTransactionWithRetry_single_attempt :
    sendRawTransactionWithRetry (fun _ => .error "netdown") 5 =
      (.failure "netdown", 1) ∧
    sendRawTransactionWithRetry
      (fun i => if i = 2 then .ok "sig3" else .error "err0") 5 =
      (.failure "err0", 1) ∧
    (∀ attempt : Nat → Except String String, ∀ e : String,
      (∀ k, attempt k = .error e) →
      sendRawTransactionWithRetry attempt 5 = (.failure e, 1)) := by
  refine ⟨rfl, rfl, ?_⟩
  intro attempt e h
  simp [sendRawTransactionWithRetry, sendLoopGo, h 0]

/-- **C2.** A failing send does not become a `Rejected` outcome: the wrapper
promise built by `executeRawTransactions` wires only `resolve` to the inner
send's fulfillment, so on a send failure it stays pending forever and
`Promise.allSettled` never resolves.  With 3 messages of which the first
fails, the dispatch call never resolves at all — it does not return three
positionally aligned outcomes.  (When every send succeeds the call does
resolve with one fulfilled outcome per message, in order.) -/
theorem c2_executeRawTransactions_failure_never_resolves :
    executeRawTransactions
      (fun b : Nat => if b = 0 then .failure "boom" else .success "sig") [0, 1, 2]
      = none ∧
    executeRawTransactions (fun b : Nat => .success (toString b)) [10, 20]
      = some [.fulfilled "10", .fulfilled "20"] :=
  ⟨rfl, rfl⟩

/-- **C3 (counterexample).** At `count = 2^31` the encoder emits nothing at
all: `rem_len >>= 7` coerces to a signed 32-bit integer, so the loop state
becomes negative and floor-division by 128 never reaches zero — the loop
never terminates, for any fuel bound. -/
theorem c3_encodeLength_diverges_at_two_pow_31 :
    encodeLength (2 ^ 31) = none ∧ encodeLengthDiverges (2 ^ 31) := by
  have h : ∀ fuel : Nat, encodeLengthLoop fuel (toInt32 (2 ^ 31)) = none := by
    intro fuel
    rw [toInt32_two_pow_31]
    exact encodeLengthLoop_neg fuel _ (by omega)
  exact ⟨h 32, h⟩

/-- **C3 (amended).** For every `n < 2^31` (the JS signed-32-bit domain on
which the shift-based loop is faithful), `encodeLength` emits exactly the
base-128 little-endian varint of `n`; decoding those bytes yields `n` back,
`n = 0` produces the single zero byte, and the byte count is 1 for
`n < 128`, 2 for `128 ≤ n < 16384`, and 3 for `16384 ≤ n < 2097152`. -/
theorem c3_encodeLength_roundtrip (n : Nat) (h : n < 2 ^ 31) :
    encodeLength n = some (encodePure n) ∧
    decodeCompactLength (encodePure n) = n ∧
    (n = 0 → encodePure n = [0]) ∧
    (n < 128 → (encodePure n).length = 1) ∧
    (128 ≤ n → n < 16384 → (encodePure n).length = 2) ∧
    (16384 ≤ n → n < 2097152 → (encodePure n).length = 3) := by
  refine ⟨?_, decode_encodePure n, ?_, ?_, ?_, ?_⟩
  · unfold encodeLength
    rw [toInt32_of_lt n h]
    exact encodeLengthLoop_eq_encodePure 31 n (by omega)
  · rintro rfl; exact encodePure_zero
  · exact encodePure_length_one n
  · exact encodePure_length_two n
  · exact encodePure_length_three n

/-! ## Lemmas about the partitioning step -/

theorem filterMap_get_of_le (l : List α) :
    ∀ (n s : Nat), l.length ≤ s →
      (List.range' s n).filterMap (fun j => l.get? j) = [] := by
  intro n
  induction n with
  | zero => intro s _; rfl
  | succ n ih =>
    intro s hs
    rw [List.range'_succ, List.filterMap_cons,
      List.get?_eq_none.2 hs, ih (s + 1) (by omega)]

/-- The inner slicing loop keeps exactly the window
`operations[i*batchSize : (i+1)*batchSize]`, clipped at the list end. -/
theorem batchSlice_eq_drop_take (l : List α) :
    ∀ (n s : Nat), (List.range' s n).filterMap (fun j => l.get? j) =
      (l.drop s).take n := by
  intro n
  induction n with
  | zero => intro s; rfl
  | succ n ih =>
    intro s
    rw [List.range'_succ, List.filterMap_cons]
    by_cases hs : s < l.length
    · rw [List.get?_eq_get hs, ih (s + 1),
        List.drop_eq_get_cons hs, List.take_cons_succ]
    · rw [List.get?_eq_none.2 (by omega), filterMap_get_of_le l n (s + 1) (by omega),
        List.drop_eq_nil_of_le (by omega), List.take_nil]

theorem batchSlice_eq (l : List α) (B i : Nat) :
    batchSlice l B i = (l.drop (i * B)).take B :=
  batchSlice_eq_drop_take l B (i * B)

theorem join_batches (B : Nat) (hB : 0 < B) :
    ∀ (nb : Nat) (l : List α), l.length ≤ nb * B →
      ((List.range nb).map (fun i => (l.drop (i * B)).take B)).flatten = l := by
  intro nb
  induction nb with
  | zero =>
    intro l hl
    have : l = [] := List.eq_nil_of_length_eq_zero (by omega)
    simp [this]
  | succ nb ih =>
    intro l hl
    rw [List.range_succ_eq_map, List.map_cons, List.map_map]
    have hrest : ∀ i : Nat,
        (l.drop (Nat.succ i * B)).take B = ((l.drop B).drop (i * B)).take B := by
      intro i
      rw [List.drop_drop, Nat.succ_mul, Nat.add_comm (i * B) B]
    have hmap : (List.range nb).map
          ((fun i => (l.drop (i * B)).take B) ∘ Nat.succ) =
        (List.range nb).map (fun i => ((l.drop B).drop (i * B)).take B) := by
      apply List.map_congr_left
      intro i _
      exact hrest i
    have hx : (nb + 1) * B = nb * B + B := by ring
    rw [hmap, List.flatten_cons, ih (l.drop B) (by rw [List.length_drop]; omega)]
    simp [List.take_append_drop]

theorem ceil_mul_ge (L B : Nat) (hB : 0 < B) : L ≤ ((L + B - 1) / B) * B := by
  have h1 : B * ((L + B - 1) / B) + (L + B - 1) % B = L + B - 1 :=
    Nat.div_add_mod _ _
  have h2 : (L + B - 1) % B < B := Nat.mod_lt _ hB
  rw [Nat.mul_comm] at h1
  omega

/-- **C4.** The slicing loop of `generateTransactions`, run on an arbitrary
operation list `l` with a positive batch size `B`, produces exactly
`ceil(L/B)` batches; their in-order concatenation is the original list; and
every batch before the last has exactly `B` operations. -/
theorem c4_partition (l : List α) (B : Nat) (hB : 0 < B) :
    (partitionStep l B).length = (l.length + B - 1) / B ∧
    (partitionStep l B).flatten = l ∧
    (∀ i, i + 1 < (partitionStep l B).length → (batchSlice l B i).length = B) := by
  refine ⟨by simp [partitionStep], ?_, ?_⟩
  · unfold partitionStep
    have hmap : (List.range ((l.length + B - 1) / B)).map (fun i => batchSlice l B i) =
        (List.range ((l.length + B - 1) / B)).map
          (fun i => (l.drop (i * B)).take B) := by
      apply List.map_congr_left
      intro i _
      exact batchSlice_eq l B i
    rw [hmap]
    exact join_batches B hB _ l (ceil_mul_ge l.length B hB)
  · intro i hi
    simp only [partitionStep, List.length_map, List.length_range] at hi
    rw [batchSlice_eq, List.length_take, List.length_drop]
    have h1 : B * ((l.length + B - 1) / B) + (l.length + B - 1) % B =
        l.length + B - 1 := Nat.div_add_mod _ _
    have h2 : (l.length + B - 1) % B < B := Nat.mod_lt _ hB
    have h4 : (i + 2) * B ≤ ((l.length + B - 1) / B) * B :=
      Nat.mul_le_mul_right B hi
    rw [Nat.mul_comm] at h1
    have h5 : (i + 2) * B = i * B + 2 * B := by ring
    omega

/-- Witness for C4: partitioning a 5-element list with batch size 2 gives
`ceil(5/2) = 3` batches, rejoining to the original list, the non-final
batches of size exactly 2. -/
theorem c4_partition_witness :
    (partitionStep [10, 20, 30, 40, 50] 2).length = (5 + 2 - 1) / 2 ∧
    (partitionStep [10, 20, 30, 40, 50] 2).flatten = [10, 20, 30, 40, 50] ∧
    (batchSlice [10, 20, 30, 40, 50] 2 0).length = 2 := by
  have h := c4_partition [10, 20, 30, 40, 50] 2 (by norm_num)
  exact ⟨h.1, h.2.1, h.2.2 0 (by rw [h.1]; norm_num)⟩

/-- Witness for C3: the amended round-trip theorem applied at `n = 300`. -/
theorem c3_roundtrip_witness :
    encodeLength 300 = some (encodePure 300) ∧
    decodeCompactLength (encodePure 300) = 300 ∧
    (encodePure 300).length = 2 := by
  have h := c3_encodeLength_roundtrip 300 (by norm_num)
  exact ⟨h.1, h.2.1, h.2.2.2.2.1 (by norm_num) (by norm_num)⟩

/-- With at least `2^21` all-present 64-byte signatures (and below `2^28`,
where the varint takes exactly 4 bytes) and an empty body, the 3-byte
allocation of `getSignatureCountLength` is one byte short of the 4 bytes the
length prefix occupies, so the last signature write runs past the buffer and
`Buffer.set` throws `RangeError`. -/
theorem customSerializeTransaction_overflow (sigs : List (Option (List Nat)))
    (hall : ∀ s ∈ sigs, s.map List.length = some 64)
    (h1 : 2097152 ≤ sigs.length) (h2 : sigs.length < 268435456) :
    customSerializeTransaction sigs [] = .error .rangeError := by
  simp only [customSerializeTransaction]
  rw [writeSignatures_overflow _ _ _ hall (by omega)
    (by
      rw [length_bufWriteBytes, List.length_replicate,
        encodePure_length_four sigs.length h1 h2,
        show getSignatureCountLength sigs.length = 3 by
          unfold getSignatureCountLength
          rw [if_neg (by omega), if_neg (by omega)]]
      simp
      omega)]

/-- **C5 (counterexample).** At `sigCount = 2^21` the fixed 3-byte allocation
of `getSignatureCountLength` is one byte short of the 4 bytes `encodeLength`
writes, so the trailing writes run one byte past the buffer and `Buffer.set`
throws `RangeError` — the claimed layout equality fails and no wire buffer
is produced. -/
theorem c5_serialize_rangeError_at_two_pow_21 :
    customSerializeTransaction
      (List.replicate (2 ^ 21) (some (List.replicate 64 0))) [] =
      .error .rangeError :=
  customSerializeTransaction_overflow _
    (by
      intro s hsmem
      rw [List.eq_of_mem_replicate hsmem]
      simp)
    (by rw [List.length_replicate]; norm_num)
    (by rw [List.length_replicate]; norm_num)

/-- **C5 (amended).** For every signature list of fewer than `2^21` fully
present 64-byte signatures and every message body, the serializer succeeds
and its output is byte-exactly
`[compact-length bytes of the count] ++ [signatures in signer order] ++ [body]`;
the prefix bytes are exactly what `encodeLength` emits for the count, and the
total length is `prefixLen + 64·count + bodyLen`.  No size ceiling is
enforced (the theorem holds for arbitrarily long bodies). -/
theorem c5_serialize_layout (sigs : List (Option (List Nat))) (body : List Nat)
    (hc : sigs.length < 2097152)
    (hall : ∀ s ∈ sigs, s.map List.length = some 64) :
    customSerializeTransaction sigs body =
      .ok (encodePure sigs.length ++ (sigs.filterMap id).flatten ++ body) ∧
    encodeLength sigs.length = some (encodePure sigs.length) ∧
    (encodePure sigs.length ++ (sigs.filterMap id).flatten ++ body).length =
      (encodePure sigs.length).length + 64 * sigs.length + body.length := by
  have hok := customSerializeTransaction_ok sigs body hc hall
  refine ⟨hok, ?_, ?_⟩
  · unfold encodeLength
    rw [toInt32_of_lt sigs.length (by omega)]
    exact encodeLengthLoop_eq_encodePure 31 sigs.length
      (by
        have h32 : (2097152 : Nat) ≤ 128 ^ (31 + 1) := by norm_num
        omega)
  · rw [List.length_append, List.length_append,
      flatten_filterMap_length sigs hall]

/-- Witness for C5: two present 64-byte signatures and a 2-byte body. -/
theorem c5_serialize_layout_witness :
    customSerializeTransaction
        [some (List.replicate 64 2), some (List.replicate 64 3)] [7, 8] =
      .ok (encodePure 2 ++
        ([some (List.replicate 64 2),
          some (List.replicate 64 3)].filterMap id).flatten ++ [7, 8]) ∧
    encodeLength 2 = some (encodePure 2) ∧
    (encodePure 2 ++
        ([some (List.replicate 64 2),
          some (List.replicate 64 3)].filterMap id).flatten ++ [7, 8]).length =
      (encodePure 2).length + 64 * 2 + 2 :=
  c5_serialize_layout
    [some (List.replicate 64 2), some (List.replicate 64 3)] [7, 8]
    (by norm_num) (by decide)

theorem getSignatureCountLength_pos (c : Nat) :
    1 ≤ getSignatureCountLength c := by
  unfold getSignatureCountLength
  split
  · omega
  · split <;> omega

set_option maxRecDepth 10000 in
/-- **C6 (counterexample).** The missing-signature error does not name the
empty slot: with the empty slot at index 1 and at index 0, the thrown error
is the same constant
(`'Transaction must be fully signed before serialization'`), so it cannot
identify which signer slot is empty. -/
theorem c6_error_does_not_name_slot :
    customSerializeTransaction [some (List.replicate 64 1), none] [] =
      .error .missingSignature ∧
    customSerializeTransaction [none, some (List.replicate 64 1)] [] =
      .error .missingSignature := by
  constructor
  · rfl
  · rfl

/-- **C6 (amended).** For every transaction with at least one signature slot
(and fewer than `2^31` slots, past which the length-prefix loop never
terminates), every present signature 64 bytes wide, and at least one empty
slot, serialization fails with the missing-signature error — a constant
message that does not name the slot — and no wire buffer is returned. -/
theorem c6_missingSignature_failure (sigs : List (Option (List Nat)))
    (body : List Nat) (hne : 1 ≤ sigs.length) (h31 : sigs.length < 2 ^ 31)
    (hall : ∀ s ∈ sigs, s = none ∨ s.map List.length = some 64)
    (hmiss : none ∈ sigs) :
    customSerializeTransaction sigs body = .error .missingSignature := by
  simp only [customSerializeTransaction]
  rw [writeSignatures_missing sigs _ _ hall hmiss
    (by
      rw [length_bufWriteBytes, List.length_replicate]
      have h5 : (encodePure sigs.length).length ≤ 5 :=
        encodePure_length_le sigs.length h31
      have hscl : 1 ≤ getSignatureCountLength sigs.length :=
        getSignatureCountLength_pos sigs.length
      omega)]

/-- Witness for C6: a 2-slot transaction whose second slot is unsigned. -/
theorem c6_missingSignature_witness :
    customSerializeTransaction [some (List.replicate 64 1), none] [9] =
      .error .missingSignature :=
  c6_missingSignature_failure [some (List.replicate 64 1), none] [9]
    (by norm_num) (by norm_num) (by decide) (by decide)

/-- **C7 (counterexample).** There is no `InvalidBatchSize` check anywhere:
with `batchSize = 0` (and `-3`), `generateTransactions` and
`generateRawTransactions` raise no error and return exactly the empty batch
list that the claim says they must not return. -/
theorem c7_no_invalidBatchSize_error :
    generateTransactions 0 1 2 = [] ∧
    generateTransactions (-3) 1 2 = [] ∧
    generateRawTransactions 0 1 2 (fun l => List.replicate l.length 0) = [] := by
  refine ⟨rfl, rfl, rfl⟩

/-- **C6/C7 (amended C7).** For every `batchSize ≤ 0`, both generators
return the empty batch list without raising any error (the instruction loop
runs zero times and `Math.ceil` of the resulting `0/batchSize` never lets
the slicing loop run); `generateRawTransactions` still performs its
blockhash fetch first, so not even the no-network part of the claim holds. -/
theorem c7_nonpositive_batch_returns_empty (b : Int) (hb : b ≤ 0)
    (fw dw : Nat) (f : List TransferParams → List Nat) :
    generateTransactions b fw dw = [] ∧
    generateRawTransactions b fw dw f = [] := by
  have h0 : ∀ L : Nat, jsNumTransactions L b = 0 := by
    intro L
    unfold jsNumTransactions
    rw [if_pos hb]
  constructor
  · simp only [generateTransactions, h0, List.range_zero, List.map_nil]
  · simp only [generateRawTransactions, h0, List.range_zero, List.map_nil]

/-- Witness for C7's amended statement at `batchSize = -3`. -/
theorem c7_nonpositive_batch_witness :
    generateTransactions (-3) 5 6 = [] ∧
    generateRawTransactions (-3) 5 6 (fun l => List.replicate l.length 1) = [] :=
  c7_nonpositive_batch_returns_empty (-3) (by norm_num) 5 6
    (fun l => List.replicate l.length 1)

/-- **C8.** The dispatcher schedules the message at index `i` with a
`setTimeout` delay of exactly `i * TX_INTERVAL`; under the `setTimeout`
contract (a callback runs no earlier than its delay after registration,
which happens when dispatch begins), the `i`-th submission starts no earlier
than `i × interval` after dispatch begins.  Only start times are
constrained; `startTime` is otherwise arbitrary, so completion order is
unconstrained. -/
theorem c8_stagger_lower_bound (N : Nat) (start0 : Nat) (startTime : Nat → Nat)
    (hsched : ∀ i, i < N → start0 + (dispatchDelays N).getD i 0 ≤ startTime i) :
    ∀ i, i < N → start0 + i * TX_INTERVAL ≤ startTime i := by
  intro i hi
  have hdelay : (dispatchDelays N).getD i 0 = i * TX_INTERVAL := by
    unfold dispatchDelays
    rw [List.getD_eq_get?, List.get?_map, List.get?_range hi]
    rfl
  have h := hsched i hi
  rwa [hdelay] at h

/-- Witness for C8: a 2-message dispatch whose trace starts each submission
exactly at its scheduled delay, instantiated at index 1. -/
theorem c8_stagger_witness :
    0 + 1 * TX_INTERVAL ≤ (fun j => j * 3500) 1 :=
  c8_stagger_lower_bound 2 0 (fun j => j * 3500) (by decide) 1 (by norm_num)

/-- **C9.** For every `batchSize ≥ 1`, `generateRawTransactions` builds
exactly `batchSize` transfer instructions — all with the same funding
source, the same destination, and a fixed 10,000 lamports — and, since
`ceil(batchSize / batchSize) = 1`, the slicing loop yields exactly one
transaction, so exactly one raw buffer is returned. -/
theorem c9_single_transaction (b : Int) (hb : 1 ≤ b) (fw dw : Nat)
    (f : List TransferParams → List Nat) :
    generateRawTransactions b fw dw f =
      [f (List.replicate b.toNat ⟨fw, dw, 10000⟩)] ∧
    (generateRawTransactions b fw dw f).length = 1 ∧
    (List.replicate b.toNat (⟨fw, dw, 10000⟩ : TransferParams)).length =
      b.toNat := by
  have hk : 1 ≤ b.toNat := by omega
  have hL : (List.replicate b.toNat (transferInstr fw dw)).length = b.toNat :=
    List.length_replicate _ _
  have hnum : jsNumTransactions b.toNat b = 0 + 1 := by
    unfold jsNumTransactions
    rw [if_neg (by omega)]
    apply Nat.div_eq_of_lt_le <;> omega
  have hslice : batchSlice (List.replicate b.toNat (transferInstr fw dw))
      b.toNat 0 = List.replicate b.toNat (transferInstr fw dw) := by
    rw [batchSlice_eq, Nat.zero_mul, List.drop_zero, List.take_replicate,
      Nat.min_self]
  have hmain : generateRawTransactions b fw dw f =
      [f (List.replicate b.toNat (transferInstr fw dw))] := by
    simp only [generateRawTransactions, hL, hnum, List.range_succ,
      List.range_zero, List.nil_append, List.map_cons, List.map_nil, hslice]
  refine ⟨hmain, by rw [hmain]; rfl, List.length_replicate _ _⟩

/-- Witness for C9 at `batchSize = 3`. -/
theorem c9_single_transaction_witness :
    generateRawTransactions 3 1 2 (fun l : List TransferParams => List.replicate l.length 9) =
      [(fun l : List TransferParams => List.replicate l.length 9)
        (List.replicate (Int.toNat 3) ⟨1, 2, 10000⟩)] ∧
    (generateRawTransactions 3 1 2
      (fun l : List TransferParams => List.replicate l.length 9)).length = 1 ∧
    (List.replicate (Int.toNat 3) (⟨1, 2, 10000⟩ : TransferParams)).length =
      Int.toNat 3 :=
  c9_single_transaction 3 (by norm_num) 1 2 (fun l : List TransferParams => List.replicate l.length 9)

/-- **C10.** For every signature count `n < 2^21`, `getSignatureCountLength n`
is exactly the number of bytes the `encodeLength` loop emits for `n`;
consequently, for a fully signed transaction with such a count the allocated
buffer of size `getSignatureCountLength(count) + count·64 + bodyLen` is
exactly filled: serialization succeeds (every bounds-checked write fits) and
the returned buffer has exactly the allocated length. -/
theorem c10_alloc_exact :
    (∀ n : Nat, n < 2097152 →
      getSignatureCountLength n = (encodePure n).length) ∧
    (∀ (sigs : List (Option (List Nat))) (body : List Nat),
      sigs.length < 2097152 → (∀ s ∈ sigs, s.map List.length = some 64) →
      (customSerializeTransaction sigs body).map List.length =
        .ok (getSignatureCountLength sigs.length + sigs.length * 64 +
          body.length)) := by
  constructor
  · intro n hn
    exact (encodePure_length_eq n hn).symm
  · intro sigs body hc hall
    rw [customSerializeTransaction_ok sigs body hc hall]
    show Except.ok (encodePure sigs.length ++ (sigs.filterMap id).flatten ++
      body).length = _
    rw [List.length_append, List.length_append,
      flatten_filterMap_length sigs hall, encodePure_length_eq sigs.length hc]
    congr 1
    omega

/-- Witness for C10: the count-length agreement at `n = 20000` and an exact
fill with one 64-byte signature and a 1-byte body. -/
theorem c10_alloc_exact_witness :
    getSignatureCountLength 20000 = (encodePure 20000).length ∧
    (customSerializeTransaction [some (List.replicate 64 3)] [5]).map
        List.length =
      .ok (getSignatureCountLength 1 + 1 * 64 + 1) :=
  ⟨c10_alloc_exact.1 20000 (by norm_num),
    c10_alloc_exact.2 [some (List.replicate 64 3)] [5] (by norm_num) (by decide)⟩

end LargeTx
